import Mathlib

/-!
Shallow embedding of the propagation-simulation core of the
h3-mesh-placement repository (scripts/longfast_animation_lib.py and
scripts/render_longfast_animation.py), together with theorems settling
the specification claims about it.

Python floats are modelled as rationals, dictionaries as association
lists (with the dict `.get(k, default)` defaulting behaviour), sets as
lists used only up to membership, and the injected `random.Random`
source as a stream of draw values consumed one index at a time.
-/

namespace LongFast

/-! ## Radio and animation configuration (longfast_animation_lib.py) -/

/-- `RadioConfig` from `longfast_animation_lib.py` (all fields are Python
ints in the source; `crc_enabled` and `implicit_header` are 0/1 flags). -/
structure RadioConfig where
  spreading_factor : ℕ
  bandwidth_khz : ℕ
  coding_rate : ℕ
  payload_bytes : ℕ
  preamble_symbols : ℕ
  crc_enabled : ℕ
  implicit_header : ℕ

/-- `AnimationConfig` from `longfast_animation_lib.py`. -/
structure AnimationConfig where
  fps : ℕ
  hop_limit : ℕ
  wave_min_s : ℚ
  wave_max_s : ℚ
  jitter_s : ℚ
  tier_thresholds_db : List ℚ

/-! ## Airtime model (`estimate_airtime_seconds`) -/

/-- `estimate_airtime_seconds` from `longfast_animation_lib.py`, with
Python float arithmetic modelled over `ℚ` and `math.ceil` as `Int.ceil`. -/
def estimate_airtime_seconds (radio : RadioConfig) : ℚ :=
  let bandwidth_hz : ℚ := (radio.bandwidth_khz : ℚ) * 1000
  let symbol_duration : ℚ := (2 ^ radio.spreading_factor : ℚ) / bandwidth_hz
  let low_data_rate_opt : ℕ := if symbol_duration > 0.016 then 1 else 0
  let cr_value : ℕ := max (min radio.coding_rate 8) 5 - 4
  let numerator : ℤ :=
    8 * (radio.payload_bytes : ℤ)
      - 4 * (radio.spreading_factor : ℤ)
      + 28
      + 16 * (radio.crc_enabled : ℤ)
      - 20 * (radio.implicit_header : ℤ)
  let denominator : ℤ := 4 * ((radio.spreading_factor : ℤ) - 2 * (low_data_rate_opt : ℤ))
  let payload_term : ℤ := max (⌈(numerator : ℚ) / (denominator : ℚ)⌉ * ((cr_value : ℤ) + 4)) 0
  let payload_symbols : ℚ := 8 + (payload_term : ℚ)
  let preamble_symbols : ℚ := (radio.preamble_symbols : ℚ) + 4.25
  (preamble_symbols + payload_symbols) * symbol_duration

/-- The airtime formula exactly as the claim words it: the payload term is
multiplied by `coding_rate - 4`. -/
def airtimeClaimFormula (radio : RadioConfig) : ℚ :=
  let low_data_rate_opt : ℕ :=
    if (2 ^ radio.spreading_factor : ℚ) / ((radio.bandwidth_khz : ℚ) * 1000) > 0.016 then 1 else 0
  let numerator : ℤ :=
    8 * (radio.payload_bytes : ℤ)
      - 4 * (radio.spreading_factor : ℤ)
      + 28
      + 16 * (radio.crc_enabled : ℤ)
      - 20 * (radio.implicit_header : ℤ)
  let denominator : ℤ := 4 * ((radio.spreading_factor : ℤ) - 2 * (low_data_rate_opt : ℤ))
  ((radio.preamble_symbols : ℚ) + 4.25 + 8
      + (max (⌈(numerator : ℚ) / (denominator : ℚ)⌉ * ((radio.coding_rate : ℤ) - 4)) 0 : ℤ))
    * (2 ^ radio.spreading_factor : ℚ) / ((radio.bandwidth_khz : ℚ) * 1000)

/-- The airtime formula amended to what the code computes: the payload term
is multiplied by `coding_rate` itself (the coding-rate numerator 5..8),
the standard Semtech multiplier. -/
def airtimeAmendedFormula (radio : RadioConfig) : ℚ :=
  let low_data_rate_opt : ℕ :=
    if (2 ^ radio.spreading_factor : ℚ) / ((radio.bandwidth_khz : ℚ) * 1000) > 0.016 then 1 else 0
  let numerator : ℤ :=
    8 * (radio.payload_bytes : ℤ)
      - 4 * (radio.spreading_factor : ℤ)
      + 28
      + 16 * (radio.crc_enabled : ℤ)
      - 20 * (radio.implicit_header : ℤ)
  let denominator : ℤ := 4 * ((radio.spreading_factor : ℤ) - 2 * (low_data_rate_opt : ℤ))
  ((radio.preamble_symbols : ℚ) + 4.25 + 8
      + (max (⌈(numerator : ℚ) / (denominator : ℚ)⌉ * (radio.coding_rate : ℤ)) 0 : ℤ))
    * (2 ^ radio.spreading_factor : ℚ) / ((radio.bandwidth_khz : ℚ) * 1000)

/-! ## Tier classifier (`assign_tier`, `build_fine_thresholds`) -/

/-- `assign_tier` from `longfast_animation_lib.py`: the index of the first
threshold with `path_loss_db <= threshold`, or the list length if none. -/
def assign_tier (path_loss_db : ℚ) : List ℚ → ℕ
  | [] => 0
  | threshold :: rest =>
      if path_loss_db ≤ threshold then 0 else assign_tier path_loss_db rest + 1

/-- The midpoint-interleaving loop of `build_fine_thresholds`
(`render_longfast_animation.py`): for each adjacent pair append the first
element and the arithmetic midpoint, then append the final element. -/
def fineLoop : List ℚ → List ℚ
  | a :: b :: rest => a :: (a + b) / 2 :: fineLoop (b :: rest)
  | l => l

/-- `build_fine_thresholds` from `render_longfast_animation.py`. -/
def build_fine_thresholds (thresholds : List ℚ) : List ℚ :=
  if thresholds.length < 2 then thresholds else fineLoop thresholds

/-! ## Transmitter selection (`select_next_transmitter`) -/

/-- Dict lookup with default: Python `m.get(k, d)` over an association list. -/
def getDQ (m : List (String × ℚ)) (k : String) (d : ℚ) : ℚ :=
  ((m.find? fun p => p.1 == k).map fun p => p.2).getD d

/-- The sort key used by `select_next_transmitter`: the Python tuple
`(received_quality.get(tower, 0.0), tower)` compared lexicographically. -/
def qkey (received_quality : List (String × ℚ)) (tower : String) : ℚ ×ₗ String :=
  toLex (getDQ received_quality tower 0, tower)

/-- `select_next_transmitter` from `render_longfast_animation.py`:
Python `max(eligible, key=...)` keeps the earliest element whose key is
maximal, so the fold replaces the running best only on a strictly larger
key. -/
def select_next_transmitter
    (eligible : List String) (received_quality : List (String × ℚ)) : Option String :=
  match eligible with
  | [] => none
  | x :: xs =>
      some (xs.foldl
        (fun best t => if qkey received_quality best < qkey received_quality t then t else best)
        x)

theorem select_foldl_mem (received_quality : List (String × ℚ)) (xs : List String) (x : String) :
    xs.foldl
        (fun best t => if qkey received_quality best < qkey received_quality t then t else best)
        x ∈ x :: xs := by
  induction xs generalizing x with
  | nil => simp
  | cons y ys ih =>
      simp only [List.foldl_cons]
      by_cases h : qkey received_quality x < qkey received_quality y
      · simp only [h, if_pos]
        have := ih y
        simp only [List.mem_cons] at this ⊢
        tauto
      · simp only [h, if_neg, not_false_iff]
        have := ih x
        simp only [List.mem_cons] at this ⊢
        tauto

theorem select_foldl_max (received_quality : List (String × ℚ)) (xs : List String) :
    ∀ x t : String, t ∈ x :: xs →
      qkey received_quality t ≤
        qkey received_quality
          (xs.foldl
            (fun best u =>
              if qkey received_quality best < qkey received_quality u then u else best)
            x) := by
  induction xs with
  | nil =>
      intro x t ht
      simp only [List.mem_cons, List.not_mem_nil, or_false] at ht
      subst ht
      simp
  | cons y ys ih =>
      intro x t ht
      simp only [List.foldl_cons]
      by_cases h : qkey received_quality x < qkey received_quality y
      · simp only [h, if_pos]
        rcases List.mem_cons.mp ht with rfl | ht'
        · exact le_trans (le_of_lt h) (ih y y (List.mem_cons_self y ys))
        · exact ih y t ht'
      · simp only [h, if_neg, not_false_iff]
        rcases List.mem_cons.mp ht with rfl | ht'
        · exact ih t t (List.mem_cons_self t ys)
        · rcases List.mem_cons.mp ht' with rfl | ht''
          · exact le_trans (le_of_not_lt h) (ih x x (List.mem_cons_self x ys))
          · exact ih x t (List.mem_cons_of_mem x ht'')

theorem select_mem (eligible : List String) (received_quality : List (String × ℚ)) (r : String)
    (h : select_next_transmitter eligible received_quality = some r) : r ∈ eligible := by
  cases eligible with
  | nil => simp [select_next_transmitter] at h
  | cons x xs =>
      simp only [select_next_transmitter, Option.some.injEq] at h
      subst h
      exact select_foldl_mem received_quality xs x

theorem select_max (eligible : List String) (received_quality : List (String × ℚ)) (r : String)
    (h : select_next_transmitter eligible received_quality = some r) :
    ∀ t ∈ eligible, qkey received_quality t ≤ qkey received_quality r := by
  cases eligible with
  | nil => simp [select_next_transmitter] at h
  | cons x xs =>
      simp only [select_next_transmitter, Option.some.injEq] at h
      subst h
      exact fun t ht => select_foldl_max received_quality xs x t ht

/-- C1 (amended): for every non-empty eligible list, the selection returns an
eligible tower whose key `(received_quality.get(tower, 0.0), tower)` is
lexicographically maximal — highest received quality, with ties broken toward
the lexicographically LARGEST tower key (not the smallest, as the claim says). -/
theorem select_next_transmitter_picks_max (eligible : List String)
    (received_quality : List (String × ℚ)) (hne : eligible ≠ []) :
    ∃ r, select_next_transmitter eligible received_quality = some r ∧
      r ∈ eligible ∧
      ∀ t ∈ eligible, qkey received_quality t ≤ qkey received_quality r := by
  cases eligible with
  | nil => exact absurd rfl hne
  | cons x xs =>
      exact ⟨_, rfl, select_foldl_mem received_quality xs x,
        fun t ht => select_foldl_max received_quality xs x t ht⟩

/-- Witness for `select_next_transmitter_picks_max` at a concrete input. -/
theorem select_next_transmitter_picks_max_witness :
    ∃ r, select_next_transmitter ["A", "B"] [("A", 5)] = some r ∧
      r ∈ ["A", "B"] ∧
      ∀ t ∈ ["A", "B"], qkey [("A", 5)] t ≤ qkey [("A", 5)] r :=
  select_next_transmitter_picks_max ["A", "B"] [("A", 5)] (by simp)

/-- C1 counterexample: with two eligible towers of equal (defaulted 0.0)
received quality the code returns "B", the lexicographically largest key,
not the smallest key "A" that the claim requires. -/
theorem select_next_transmitter_tie_counterexample :
    select_next_transmitter ["A", "B"] [] = some "B" ∧
      select_next_transmitter ["A", "B"] [] ≠ some "A" := by
  have hab : ("A" : String) < "B" := by
    rw [String.lt_iff_toList_lt]; decide
  have hk : qkey [] "A" < qkey [] "B" := by
    simp only [qkey, getDQ, List.find?]
    exact (Prod.Lex.lt_iff _ _).mpr (Or.inr ⟨rfl, hab⟩)
  refine ⟨?_, ?_⟩ <;> simp [select_next_transmitter, hk]

/-! ## Claim C8: assign_tier -/

theorem assign_tier_le_length (path_loss_db : ℚ) :
    ∀ thresholds : List ℚ, assign_tier path_loss_db thresholds ≤ thresholds.length := by
  intro thresholds
  induction thresholds with
  | nil => simp [assign_tier]
  | cons a l ih =>
      simp only [assign_tier, List.length_cons]
      by_cases h : path_loss_db ≤ a
      · simp [h]
      · simp only [h, if_neg, not_false_iff]
        omega

theorem assign_tier_before (path_loss_db : ℚ) :
    ∀ thresholds : List ℚ, ∀ j, j < assign_tier path_loss_db thresholds →
      ∀ hj : j < thresholds.length, thresholds.get ⟨j, hj⟩ < path_loss_db := by
  intro thresholds
  induction thresholds with
  | nil => intro j hj hlen; simp [assign_tier] at hj
  | cons a l ih =>
      intro j hj hlen
      by_cases h : path_loss_db ≤ a
      · simp [assign_tier, h] at hj
      · simp only [assign_tier, h, if_neg, not_false_iff] at hj
        cases j with
        | zero => exact lt_of_not_le h
        | succ k =>
            have hk : k < assign_tier path_loss_db l := by omega
            simpa using ih k hk (by simpa using hlen)

theorem assign_tier_at (path_loss_db : ℚ) :
    ∀ thresholds : List ℚ, ∀ h : assign_tier path_loss_db thresholds < thresholds.length,
      path_loss_db ≤ thresholds.get ⟨assign_tier path_loss_db thresholds, h⟩ := by
  intro thresholds
  induction thresholds with
  | nil => intro h; simp [assign_tier] at h
  | cons a l ih =>
      intro hlt
      by_cases h : path_loss_db ≤ a
      · simpa [assign_tier, h] using h
      · have hrec : assign_tier path_loss_db (a :: l) = assign_tier path_loss_db l + 1 := by
          simp [assign_tier, h]
        have hlen : assign_tier path_loss_db l < l.length := by
          have := hlt
          rw [hrec] at this
          simpa using this
        have := ih hlen
        simp only [assign_tier, h, if_neg, not_false_iff]
        simpa using this

/-- C8: `assign_tier` returns the index of the first threshold that is
greater than or equal to the path-loss value (every earlier threshold is
strictly below the value), and returns the length of the list when no
threshold qualifies; with thresholds [100,110,120,130,140,150], 105 maps to
tier 1 and 999 maps to tier 6. -/
theorem assign_tier_first_qualifying (path_loss_db : ℚ) (thresholds : List ℚ) :
    assign_tier path_loss_db thresholds ≤ thresholds.length ∧
      (∀ j, j < assign_tier path_loss_db thresholds →
        ∀ hj : j < thresholds.length, thresholds.get ⟨j, hj⟩ < path_loss_db) ∧
      (∀ h : assign_tier path_loss_db thresholds < thresholds.length,
        path_loss_db ≤ thresholds.get ⟨assign_tier path_loss_db thresholds, h⟩) ∧
      assign_tier 105 [100, 110, 120, 130, 140, 150] = 1 ∧
      assign_tier 999 [100, 110, 120, 130, 140, 150] = 6 := by
  refine ⟨assign_tier_le_length path_loss_db thresholds,
    fun j hj hlen => assign_tier_before path_loss_db thresholds j hj hlen,
    fun h => assign_tier_at path_loss_db thresholds h, ?_, ?_⟩ <;> decide

/-- Witness for `assign_tier_first_qualifying` at a concrete input. -/
theorem assign_tier_first_qualifying_witness :
    assign_tier 105 [100, 110] ≤ 2 ∧
      (∀ j, j < assign_tier 105 [100, 110] →
        ∀ hj : j < ([100, 110] : List ℚ).length, ([100, 110] : List ℚ).get ⟨j, hj⟩ < 105) ∧
      (∀ h : assign_tier 105 [100, 110] < ([100, 110] : List ℚ).length,
        (105 : ℚ) ≤ ([100, 110] : List ℚ).get ⟨assign_tier 105 [100, 110], h⟩) ∧
      assign_tier 105 [100, 110, 120, 130, 140, 150] = 1 ∧
      assign_tier 999 [100, 110, 120, 130, 140, 150] = 6 :=
  assign_tier_first_qualifying 105 [100, 110]

/-! ## Claim C9: build_fine_thresholds -/

theorem fineLoop_length (l : List ℚ) : (fineLoop l).length = 2 * l.length - 1 := by
  induction l with
  | nil => simp [fineLoop]
  | cons a tail ih =>
      cases tail with
      | nil => simp [fineLoop]
      | cons b rest =>
          simp only [fineLoop, List.length_cons] at ih ⊢
          omega

theorem fineLoop_head (l : List ℚ) : (fineLoop l).head? = l.head? := by
  cases l with
  | nil => rfl
  | cons a tail =>
      cases tail with
      | nil => rfl
      | cons b rest => rfl

theorem fineLoop_ne_nil (l : List ℚ) (h : l ≠ []) : fineLoop l ≠ [] := by
  cases l with
  | nil => exact absurd rfl h
  | cons a tail =>
      cases tail with
      | nil => simp [fineLoop]
      | cons b rest => simp [fineLoop]

theorem fineLoop_getLast (l : List ℚ) : (fineLoop l).getLast? = l.getLast? := by
  induction l with
  | nil => rfl
  | cons a tail ih =>
      cases tail with
      | nil => rfl
      | cons b rest =>
          have hne : fineLoop (b :: rest) ≠ [] := fineLoop_ne_nil _ (by simp)
          cases hfl : fineLoop (b :: rest) with
          | nil => exact absurd hfl hne
          | cons c cs =>
              have h1 : fineLoop (a :: b :: rest) = a :: (a + b) / 2 :: c :: cs := by
                rw [fineLoop, hfl]
              calc (fineLoop (a :: b :: rest)).getLast?
                  = (c :: cs).getLast? := by
                    rw [h1, List.getLast?_cons_cons, List.getLast?_cons_cons]
                _ = (b :: rest).getLast? := by rw [← hfl, ih]
                _ = (a :: b :: rest).getLast? := List.getLast?_cons_cons.symm

theorem fineLoop_chain (l : List ℚ) (h : l.Chain' (· ≤ ·)) :
    (fineLoop l).Chain' (· ≤ ·) := by
  induction l with
  | nil => simpa [fineLoop] using h
  | cons a tail ih =>
      cases tail with
      | nil => simpa [fineLoop] using h
      | cons b rest =>
          rw [List.chain'_cons] at h
          obtain ⟨hab, hchain⟩ := h
          have ihc := ih hchain
          simp only [fineLoop]
          rw [List.chain'_cons']
          refine ⟨?_, ?_⟩
          · intro y hy
            simp only [List.head?_cons, Option.mem_def, Option.some.injEq] at hy
            subst hy
            linarith
          · rw [List.chain'_cons']
            refine ⟨?_, ihc⟩
            intro y hy
            rw [fineLoop_head] at hy
            simp only [List.head?_cons, Option.mem_def, Option.some.injEq] at hy
            subst hy
            linarith

theorem fineLoop_get_even (l : List ℚ) :
    ∀ i a, l.get? i = some a → (fineLoop l).get? (2 * i) = some a := by
  induction l with
  | nil => intro i a h; simp at h
  | cons x tail ih =>
      intro i a h
      cases tail with
      | nil =>
          cases i with
          | zero => simpa [fineLoop] using h
          | succ j => simp at h
      | cons y rest =>
          cases i with
          | zero => simpa [fineLoop] using h
          | succ j =>
              have hj : (y :: rest).get? j = some a := by simpa using h
              have := ih j a hj
              have h2 : 2 * (j + 1) = 2 * j + 1 + 1 := by omega
              rw [h2]
              simpa [fineLoop] using this

theorem fineLoop_get_odd (l : List ℚ) :
    ∀ i a b, l.get? i = some a → l.get? (i + 1) = some b →
      (fineLoop l).get? (2 * i + 1) = some ((a + b) / 2) := by
  induction l with
  | nil => intro i a b h _; simp at h
  | cons x tail ih =>
      intro i a b h hb
      cases tail with
      | nil =>
          cases i with
          | zero => simp at hb
          | succ j => simp at h
      | cons y rest =>
          cases i with
          | zero =>
              simp only [List.get?] at h hb
              obtain rfl : x = a := by simpa using h
              obtain rfl : y = b := by simpa using hb
              simp [fineLoop]
          | succ j =>
              have ha : (y :: rest).get? j = some a := by simpa using h
              have hb2 : (y :: rest).get? (j + 1) = some b := by simpa using hb
              have := ih j a b ha hb2
              have h2 : 2 * (j + 1) + 1 = 2 * j + 1 + 1 + 1 := by omega
              rw [h2]
              simpa [fineLoop] using this

theorem build_fine_eq_fineLoop (thresholds : List ℚ) :
    build_fine_thresholds thresholds = fineLoop thresholds := by
  by_cases h : thresholds.length < 2
  · rw [build_fine_thresholds, if_pos h]
    match thresholds, h with
    | [], _ => rfl
    | [a], _ => rfl
  · rw [build_fine_thresholds, if_neg h]

/-- C9: the fine-threshold expansion returns exactly 2N-1 values for an
N-element input (truncated subtraction covers N = 0), preserves the first and
last values, maps even positions to the input thresholds and odd positions to
the arithmetic midpoints of their neighbours, and preserves the non-decreasing
ordering of an ascending input. -/
theorem build_fine_thresholds_spec :
    (∀ thresholds : List ℚ,
        (build_fine_thresholds thresholds).length = 2 * thresholds.length - 1) ∧
      (∀ thresholds : List ℚ,
        (build_fine_thresholds thresholds).head? = thresholds.head?) ∧
      (∀ thresholds : List ℚ,
        (build_fine_thresholds thresholds).getLast? = thresholds.getLast?) ∧
      (∀ thresholds : List ℚ, thresholds.Chain' (· ≤ ·) →
        (build_fine_thresholds thresholds).Chain' (· ≤ ·)) ∧
      (∀ (thresholds : List ℚ) (i : ℕ) (a : ℚ), thresholds.get? i = some a →
        (build_fine_thresholds thresholds).get? (2 * i) = some a) ∧
      (∀ (thresholds : List ℚ) (i : ℕ) (a b : ℚ),
        thresholds.get? i = some a → thresholds.get? (i + 1) = some b →
        (build_fine_thresholds thresholds).get? (2 * i + 1) = some ((a + b) / 2)) := by
  refine ⟨?_, ?_, ?_, ?_, ?_, ?_⟩ <;> intro thresholds <;>
    rw [build_fine_eq_fineLoop]
  · exact fineLoop_length thresholds
  · exact fineLoop_head thresholds
  · exact fineLoop_getLast thresholds
  · exact fineLoop_chain thresholds
  · exact fineLoop_get_even thresholds
  · exact fineLoop_get_odd thresholds

/-- Witness for `build_fine_thresholds_spec` at a concrete input. -/
theorem build_fine_thresholds_spec_witness :
    List.Chain' (· ≤ ·) (build_fine_thresholds [100, 110, 120]) ∧
      (build_fine_thresholds [100, 110, 120]).get? 1 = some 105 ∧
      (build_fine_thresholds [100, 110, 120]).get? 2 = some 110 :=
  ⟨build_fine_thresholds_spec.2.2.2.1 [100, 110, 120] (by norm_num [List.chain'_cons]),
    by
      have := build_fine_thresholds_spec.2.2.2.2.2 [100, 110, 120] 0 100 110
        (by decide) (by decide)
      norm_num at this ⊢
      exact this,
    by
      have := build_fine_thresholds_spec.2.2.2.2.1 [100, 110, 120] 1 110 (by decide)
      norm_num at this ⊢
      exact this⟩

/-! ## Claim C2: airtime formula -/

/-- C2 counterexample: at SF=7, BW=125 kHz, CR=5, 20 payload bytes, 8 preamble
symbols, CRC on, explicit header, the code's airtime differs from the claim's
formula, because the code multiplies the payload term by the coding rate
numerator (5), not by coding_rate - 4 = 1. -/
theorem airtime_formula_counterexample :
    estimate_airtime_seconds ⟨7, 125, 5, 20, 8, 1, 0⟩ ≠
      airtimeClaimFormula ⟨7, 125, 5, 20, 8, 1, 0⟩ := by
  have hceil : (⌈(44 : ℚ) / 7⌉ : ℤ) = 7 := by
    rw [Int.ceil_eq_iff]; norm_num
  have hmax : ((7 : ℤ) ⊔ 0) = 7 := by decide
  simp only [estimate_airtime_seconds, airtimeClaimFormula]
  norm_num [hceil, hmax]

/-- C2 (amended): for every radio configuration with spreading factor 7..12,
positive bandwidth and coding-rate numerator 5..8, `estimate_airtime_seconds`
equals the claimed closed formula with the payload term multiplied by
`coding_rate` (the numerator itself, the standard Semtech multiplier), not by
`coding_rate - 4`. -/
theorem estimate_airtime_eq_amended_formula (radio : RadioConfig)
    (hsf7 : 7 ≤ radio.spreading_factor) (hsf12 : radio.spreading_factor ≤ 12)
    (hbw : 1 ≤ radio.bandwidth_khz)
    (hcr5 : 5 ≤ radio.coding_rate) (hcr8 : radio.coding_rate ≤ 8) :
    estimate_airtime_seconds radio = airtimeAmendedFormula radio := by
  have hcast : ((max (min radio.coding_rate 8) 5 - 4 : ℕ) : ℤ) + 4 = (radio.coding_rate : ℤ) := by
    omega
  simp only [estimate_airtime_seconds, airtimeAmendedFormula]
  rw [hcast]
  ring

/-- Witness for `estimate_airtime_eq_amended_formula` at the spec's concrete
scenario SF=11, BW=250 kHz, CR=5, 160 payload bytes. -/
theorem estimate_airtime_eq_amended_formula_witness :
    7 ≤ 11 ∧ 11 ≤ 12 ∧ 1 ≤ 250 ∧ 5 ≤ 5 ∧ 5 ≤ 8 ∧
      estimate_airtime_seconds ⟨11, 250, 5, 160, 8, 1, 0⟩ =
        airtimeAmendedFormula ⟨11, 250, 5, 160, 8, 1, 0⟩ :=
  ⟨by decide, by decide, by decide, by decide, by decide,
    estimate_airtime_eq_amended_formula ⟨11, 250, 5, 160, 8, 1, 0⟩
      (by decide) (by decide) (by decide) (by decide) (by decide)⟩

/-! ## Wave builder (`build_waves`) and the hop map -/

/-- Dict lookup with default: Python `adjacency.get(tower, [])`. -/
def adjGet (adjacency : List (String × List String)) (tower : String) : List String :=
  ((adjacency.find? fun p => p.1 == tower).map fun p => p.2).getD []

/-- One neighbour check inside the BFS loop of `build_waves`
(`longfast_animation_lib.py`): skip visited neighbours, otherwise mark
visited and append to the next wave. The pair is (visited, next_wave). -/
def visitNeighbor (acc : List String × List String) (neighbor : String) :
    List String × List String :=
  if neighbor ∈ acc.1 then acc else (neighbor :: acc.1, acc.2 ++ [neighbor])

/-- One iteration of the BFS loop body of `build_waves`: expand every tower of
the current wave, threading the visited set, and collect the next wave. -/
def buildWavesStep (adjacency : List (String × List String))
    (visited current : List String) : List String × List String :=
  current.foldl (fun acc tower => (adjGet adjacency tower).foldl visitNeighbor acc) (visited, [])

/-- The `for _ in range(hop_limit + 1)` loop of `build_waves`, with the
remaining iteration count as fuel: append the current wave, stop early when
the next wave is empty. -/
def buildWavesAux (adjacency : List (String × List String)) :
    ℕ → List String → List String → List (List String)
  | 0, _, _ => []
  | fuel + 1, visited, current =>
      let step := buildWavesStep adjacency visited current
      if step.2 = [] then [current]
      else current :: buildWavesAux adjacency fuel step.1 step.2

/-- `build_waves` from `longfast_animation_lib.py`. -/
def build_waves (seed_h3 : String) (adjacency : List (String × List String))
    (hop_limit : ℕ) : List (List String) :=
  buildWavesAux adjacency (hop_limit + 1) [seed_h3] [seed_h3]

/-- The hop map built in `main` (`render_longfast_animation.py`): tower to
index of the wave containing it, in wave iteration order. -/
def towerHopsOfWaves (waves : List (List String)) : List (String × ℕ) :=
  (waves.enum.map fun p => p.2.map fun tower => (tower, p.1)).join

/-- `reachN adjacency seed n t` holds when `t` is reachable from the seed in
at most `n` adjacency steps: the mathematical yardstick for BFS distance. -/
def reachN (adjacency : List (String × List String)) (seed : String) :
    ℕ → String → Prop
  | 0, t => t = seed
  | n + 1, t => reachN adjacency seed n t ∨
      ∃ u, reachN adjacency seed n u ∧ t ∈ adjGet adjacency u

/-- BFS distance: reachable in `d` steps and in no fewer. -/
def isBfsDist (adjacency : List (String × List String)) (seed t : String) (d : ℕ) : Prop :=
  reachN adjacency seed d t ∧ ∀ j, reachN adjacency seed j t → d ≤ j

theorem reachN_mono (adjacency : List (String × List String)) (seed : String) :
    ∀ {n m : ℕ}, n ≤ m → ∀ {t : String},
      reachN adjacency seed n t → reachN adjacency seed m t := by
  intro n m hnm
  induction m with
  | zero =>
      intro t h
      have : n = 0 := Nat.le_zero.mp hnm
      subst this
      exact h
  | succ k ih =>
      intro t h
      rcases Nat.lt_or_ge n (k + 1) with hlt | hge
      · exact Or.inl (ih (Nat.lt_succ_iff.mp hlt) h)
      · have : n = k + 1 := Nat.le_antisymm hnm hge
        subst this
        exact h

theorem visitNeighbor_fold (visited0 : List String) (ns : List String) :
    ∀ acc : List String × List String,
      (∀ x, x ∈ acc.1 ↔ x ∈ visited0 ∨ x ∈ acc.2) →
      (∀ x, x ∈ (ns.foldl visitNeighbor acc).1 ↔
          x ∈ visited0 ∨ x ∈ (ns.foldl visitNeighbor acc).2) ∧
      (∀ x, x ∈ acc.1 → x ∈ (ns.foldl visitNeighbor acc).1) ∧
      (∀ x, x ∈ acc.2 → x ∈ (ns.foldl visitNeighbor acc).2) ∧
      (∀ x, x ∈ ns → x ∈ (ns.foldl visitNeighbor acc).1) ∧
      (∀ x, x ∈ (ns.foldl visitNeighbor acc).2 → x ∈ acc.2 ∨ x ∈ ns) ∧
      ((∀ x, x ∈ acc.2 → x ∉ visited0) →
        ∀ x, x ∈ (ns.foldl visitNeighbor acc).2 → x ∉ visited0) := by
  induction ns with
  | nil =>
      intro acc hP
      exact ⟨hP, fun x h => h, fun x h => h, by simp, fun x h => Or.inl h, fun hf => hf⟩
  | cons n ns ih =>
      intro acc hP
      simp only [List.foldl_cons]
      have hP' : ∀ x, x ∈ (visitNeighbor acc n).1 ↔ x ∈ visited0 ∨ x ∈ (visitNeighbor acc n).2 := by
        intro x
        by_cases hn : n ∈ acc.1
        · simp only [visitNeighbor, hn, if_pos]
          exact hP x
        · simp only [visitNeighbor, hn, if_neg, not_false_iff, List.mem_cons, List.mem_append,
            List.mem_singleton]
          rw [hP x]
          tauto
      obtain ⟨c1, c2, c3, c4, c5, c6⟩ := ih (visitNeighbor acc n) hP'
      have hsub1 : ∀ x, x ∈ acc.1 → x ∈ (visitNeighbor acc n).1 := by
        intro x hx
        by_cases hn : n ∈ acc.1
        · simpa only [visitNeighbor, hn, if_pos] using hx
        · simp only [visitNeighbor, hn, if_neg, not_false_iff, List.mem_cons]
          exact Or.inr hx
      have hsub2 : ∀ x, x ∈ acc.2 → x ∈ (visitNeighbor acc n).2 := by
        intro x hx
        by_cases hn : n ∈ acc.1
        · simpa only [visitNeighbor, hn, if_pos] using hx
        · simp only [visitNeighbor, hn, if_neg, not_false_iff, List.mem_append]
          exact Or.inl hx
      have hback : ∀ x, x ∈ (visitNeighbor acc n).2 → x ∈ acc.2 ∨ x = n := by
        intro x hx
        by_cases hn : n ∈ acc.1
        · simp only [visitNeighbor, hn, if_pos] at hx
          exact Or.inl hx
        · simp only [visitNeighbor, hn, if_neg, not_false_iff, List.mem_append,
            List.mem_singleton] at hx
          exact hx
      refine ⟨c1, ?_, ?_, ?_, ?_, ?_⟩
      · exact fun x hx => c2 x (hsub1 x hx)
      · exact fun x hx => c3 x (hsub2 x hx)
      · intro x hx
        rcases List.mem_cons.mp hx with rfl | hx'
        · refine c2 x ?_
          by_cases hn : x ∈ acc.1
          · simpa only [visitNeighbor, hn, if_pos] using hn
          · simp [visitNeighbor, hn]
        · exact c4 x hx'
      · intro x hx
        rcases c5 x hx with hx' | hx'
        · rcases hback x hx' with h | rfl
          · exact Or.inl h
          · exact Or.inr (List.mem_cons_self x ns)
        · exact Or.inr (List.mem_cons_of_mem n hx')
      · intro hf x hx
        refine c6 ?_ x hx
        intro y hy
        rcases hback y hy with h | rfl
        · exact hf y h
        · intro hv
          by_cases hn : y ∈ acc.1
          · simp only [visitNeighbor, hn, if_pos] at hy
            exact hf y hy hv
          · exact hn ((hP y).mpr (Or.inl hv))

theorem buildWavesStep_fold (adjacency : List (String × List String))
    (visited0 : List String) (current : List String) :
    ∀ acc : List String × List String,
      (∀ x, x ∈ acc.1 ↔ x ∈ visited0 ∨ x ∈ acc.2) →
      let r := current.foldl
        (fun acc tower => (adjGet adjacency tower).foldl visitNeighbor acc) acc
      (∀ x, x ∈ r.1 ↔ x ∈ visited0 ∨ x ∈ r.2) ∧
      (∀ x, x ∈ acc.1 → x ∈ r.1) ∧
      (∀ x, x ∈ acc.2 → x ∈ r.2) ∧
      (∀ u, u ∈ current → ∀ x, x ∈ adjGet adjacency u → x ∈ r.1) ∧
      (∀ x, x ∈ r.2 → x ∈ acc.2 ∨ ∃ u, u ∈ current ∧ x ∈ adjGet adjacency u) ∧
      ((∀ x, x ∈ acc.2 → x ∉ visited0) → ∀ x, x ∈ r.2 → x ∉ visited0) := by
  induction current with
  | nil =>
      intro acc hP
      exact ⟨hP, fun x h => h, fun x h => h, by simp, fun x h => Or.inl h, fun hf => hf⟩
  | cons u us ih =>
      intro acc hP
      simp only [List.foldl_cons]
      obtain ⟨i1, i2, i3, i4, i5, i6⟩ :=
        visitNeighbor_fold visited0 (adjGet adjacency u) acc hP
      obtain ⟨o1, o2, o3, o4, o5, o6⟩ :=
        ih ((adjGet adjacency u).foldl visitNeighbor acc) i1
      refine ⟨o1, ?_, ?_, ?_, ?_, ?_⟩
      · exact fun x hx => o2 x (i2 x hx)
      · exact fun x hx => o3 x (i3 x hx)
      · intro v hv x hx
        rcases List.mem_cons.mp hv with rfl | hv'
        · exact o2 x (i4 x hx)
        · exact o4 v hv' x hx
      · intro x hx
        rcases o5 x hx with hx' | ⟨w, hw, hwx⟩
        · rcases i5 x hx' with h | h
          · exact Or.inl h
          · exact Or.inr ⟨u, List.mem_cons_self u us, h⟩
        · exact Or.inr ⟨w, List.mem_cons_of_mem u hw, hwx⟩
      · intro hf
        exact o6 (i6 hf)

theorem buildWavesStep_spec (adjacency : List (String × List String))
    (visited current : List String) :
    (∀ x, x ∈ (buildWavesStep adjacency visited current).1 ↔
        x ∈ visited ∨ x ∈ (buildWavesStep adjacency visited current).2) ∧
      (∀ x, x ∈ (buildWavesStep adjacency visited current).2 ↔
        x ∉ visited ∧ ∃ u, u ∈ current ∧ x ∈ adjGet adjacency u) := by
  have hP : ∀ x : String, x ∈ visited ↔ x ∈ visited ∨ x ∈ ([] : List String) := by
    simp
  obtain ⟨o1, _, _, o4, o5, o6⟩ :=
    buildWavesStep_fold adjacency visited current (visited, []) hP
  refine ⟨o1, fun x => ⟨fun hx => ?_, fun hx => ?_⟩⟩
  · refine ⟨o6 (by simp) x hx, ?_⟩
    rcases o5 x hx with h | h
    · simp at h
    · exact h
  · obtain ⟨hxv, u, hu, hadj⟩ := hx
    have : x ∈ (buildWavesStep adjacency visited current).1 := o4 u hu x hadj
    rcases (o1 x).mp this with h | h
    · exact absurd h hxv
    · exact h

/-- The BFS invariant of the wave-builder loop at hop `k`: the visited set is
exactly the towers within distance `k`, and the current wave is exactly the
towers at distance exactly `k`. -/
def wavesInv (adjacency : List (String × List String)) (seed : String) (k : ℕ)
    (visited current : List String) : Prop :=
  (∀ t, t ∈ visited ↔ reachN adjacency seed k t) ∧
    (∀ t, t ∈ current ↔ isBfsDist adjacency seed t k)

theorem wavesInv_step (adjacency : List (String × List String)) (seed : String)
    (k : ℕ) (visited current : List String)
    (hinv : wavesInv adjacency seed k visited current) :
    wavesInv adjacency seed (k + 1) (buildWavesStep adjacency visited current).1
      (buildWavesStep adjacency visited current).2 := by
  obtain ⟨hv, hc⟩ := hinv
  obtain ⟨s1, s2⟩ := buildWavesStep_spec adjacency visited current
  constructor
  · intro t
    rw [s1 t]
    constructor
    · rintro (h | h)
      · exact Or.inl ((hv t).mp h)
      · obtain ⟨-, u, hu, hadj⟩ := (s2 t).mp h
        exact Or.inr ⟨u, ((hc u).mp hu).1, hadj⟩
    · rintro (h | ⟨u, hu, hadj⟩)
      · exact Or.inl ((hv t).mpr h)
      · by_cases htv : t ∈ visited
        · exact Or.inl htv
        · refine Or.inr ((s2 t).mpr ⟨htv, ?_⟩)
          by_cases humin : ∀ j, reachN adjacency seed j u → k ≤ j
          · exact ⟨u, (hc u).mpr ⟨hu, humin⟩, hadj⟩
          · push_neg at humin
            obtain ⟨j, hju, hjk⟩ := humin
            have hjk' : j + 1 ≤ k := hjk
            have : reachN adjacency seed (j + 1) t := Or.inr ⟨u, hju, hadj⟩
            have : reachN adjacency seed k t := reachN_mono adjacency seed hjk' this
            exact absurd ((hv t).mpr this) htv
  · intro t
    rw [s2 t]
    constructor
    · rintro ⟨htv, u, hu, hadj⟩
      have hu' := (hc u).mp hu
      refine ⟨Or.inr ⟨u, hu'.1, hadj⟩, ?_⟩
      intro j hj
      by_contra hjk
      push_neg at hjk
      have : reachN adjacency seed k t := reachN_mono adjacency seed (by omega) hj
      exact htv ((hv t).mpr this)
    · rintro ⟨hr, hmin⟩
      have htv : t ∉ visited := by
        intro h
        have := hmin k ((hv t).mp h)
        omega
      refine ⟨htv, ?_⟩
      rcases hr with h | ⟨u, hu, hadj⟩
      · exact absurd (hmin k h) (by omega)
      · refine ⟨u, (hc u).mpr ⟨hu, ?_⟩, hadj⟩
        intro j hj
        by_contra hjk
        push_neg at hjk
        have hstep : reachN adjacency seed (j + 1) t := Or.inr ⟨u, hj, hadj⟩
        have : reachN adjacency seed k t := reachN_mono adjacency seed (by omega) hstep
        have := hmin k this
        omega

theorem buildWavesAux_dist (adjacency : List (String × List String)) (seed : String) :
    ∀ (fuel k : ℕ) (visited current : List String),
      wavesInv adjacency seed k visited current →
      ∀ i w, (buildWavesAux adjacency fuel visited current).get? i = some w →
        ∀ t ∈ w, isBfsDist adjacency seed t (k + i) := by
  intro fuel
  induction fuel with
  | zero =>
      intro k visited current _ i w hw
      simp [buildWavesAux] at hw
  | succ fuel ih =>
      intro k visited current hinv i w hw t ht
      simp only [buildWavesAux] at hw
      by_cases hstep : (buildWavesStep adjacency visited current).2 = []
      · rw [if_pos hstep] at hw
        cases i with
        | zero =>
            obtain rfl : current = w := by simpa using hw
            exact (k.add_zero ▸ (hinv.2 t).mp ht)
        | succ i' => simp at hw
      · rw [if_neg hstep] at hw
        cases i with
        | zero =>
            obtain rfl : current = w := by simpa using hw
            exact (k.add_zero ▸ (hinv.2 t).mp ht)
        | succ i' =>
            have hinv' := wavesInv_step adjacency seed k visited current hinv
            have hw' : (buildWavesAux adjacency fuel
                (buildWavesStep adjacency visited current).1
                (buildWavesStep adjacency visited current).2).get? i' = some w := by
              simpa using hw
            have := ih (k + 1) _ _ hinv' i' w hw' t ht
            have harith : k + 1 + i' = k + (i' + 1) := by omega
            rwa [harith] at this

theorem build_waves_dist (adjacency : List (String × List String)) (seed : String)
    (hop_limit : ℕ) (i : ℕ) (w : List String)
    (hw : (build_waves seed adjacency hop_limit).get? i = some w)
    (t : String) (ht : t ∈ w) :
    isBfsDist adjacency seed t i := by
  have hinv : wavesInv adjacency seed 0 [seed] [seed] := by
    constructor
    · intro u
      simp [reachN]
    · intro u
      constructor
      · intro hu
        simp only [List.mem_singleton] at hu
        exact ⟨hu, fun j _ => Nat.zero_le j⟩
      · intro hu
        simpa using hu.1
  have := buildWavesAux_dist adjacency seed (hop_limit + 1) 0 [seed] [seed] hinv i w hw t ht
  simpa using this

/-- The concrete adjacency of the claim scenario:
A - B, A - C, B - D (symmetric). -/
def exampleAdjacency : List (String × List String) :=
  [("A", ["B", "C"]), ("B", ["A", "D"]), ("C", ["A"]), ("D", ["B"])]

/-- C7: `build_waves` places each tower in at most one wave, and the wave
index of every tower equals its BFS distance from the seed; on the concrete
scenario the waves are [[A],[B,C],[D]] and the derived hop map is
A:0, B:1, C:1, D:2. -/
theorem build_waves_bfs_correct :
    (∀ (adjacency : List (String × List String)) (seed : String) (hop_limit : ℕ)
        (i j : ℕ) (wi wj : List String) (t : String),
        (build_waves seed adjacency hop_limit).get? i = some wi →
        (build_waves seed adjacency hop_limit).get? j = some wj →
        t ∈ wi → t ∈ wj → i = j) ∧
      (∀ (adjacency : List (String × List String)) (seed : String) (hop_limit : ℕ)
        (i : ℕ) (w : List String) (t : String),
        (build_waves seed adjacency hop_limit).get? i = some w → t ∈ w →
        isBfsDist adjacency seed t i) ∧
      build_waves "A" exampleAdjacency 3 = [["A"], ["B", "C"], ["D"]] ∧
      towerHopsOfWaves (build_waves "A" exampleAdjacency 3) =
        [("A", 0), ("B", 1), ("C", 1), ("D", 2)] := by
  refine ⟨?_, ?_, ?_, ?_⟩
  · intro adjacency seed hop_limit i j wi wj t hwi hwj hti htj
    obtain ⟨hri, hmi⟩ := build_waves_dist adjacency seed hop_limit i wi hwi t hti
    obtain ⟨hrj, hmj⟩ := build_waves_dist adjacency seed hop_limit j wj hwj t htj
    exact Nat.le_antisymm (hmi j hrj) (hmj i hri)
  · intro adjacency seed hop_limit i w t hw ht
    exact build_waves_dist adjacency seed hop_limit i w hw t ht
  · decide
  · decide

/-- Witness for `build_waves_bfs_correct`: tower "D" sits in wave 2, and the
theorem yields that its BFS distance from "A" is exactly 2. -/
theorem build_waves_bfs_correct_witness :
    isBfsDist exampleAdjacency "A" "D" 2 :=
  build_waves_bfs_correct.2.1 exampleAdjacency "A" 3 2 ["D"] "D" (by decide) (by decide)

/-! ## Schedule builder (`build_schedule`) -/

/-- Per-wave inner loop of `build_schedule` (`longfast_animation_lib.py`):
towers transmit strictly sequentially; each duration is the airtime plus one
jitter draw consumed from the random stream. Returns the wave's schedule
entries together with the final current_time and stream index. -/
def scheduleWave (airtime_s : ℚ) (rng : ℕ → ℚ) (hop_index : ℕ) :
    List String → ℚ → ℕ → List (String × ℚ × ℚ × ℕ) × ℚ × ℕ
  | [], current_time, idx => ([], current_time, idx)
  | tower :: rest, current_time, idx =>
      let duration := airtime_s + rng idx
      let r := scheduleWave airtime_s rng hop_index rest (current_time + duration) (idx + 1)
      ((tower, current_time, current_time + duration, hop_index) :: r.1, r.2)

/-- The `for hop_index, wave in enumerate(waves, start=1)` loop of
`build_schedule`, including the inter-wave pacing (minimum gap, or a random
gap while below the maximum). -/
def buildScheduleAux (airtime_s : ℚ) (config : AnimationConfig) (rng : ℕ → ℚ) :
    List (List String) → ℕ → ℚ → ℕ → List (String × ℚ × ℚ × ℕ)
  | [], _, _, _ => []
  | wave :: rest, hop_index, current_time, idx =>
      let wave_start := current_time
      let r := scheduleWave airtime_s rng hop_index wave current_time idx
      let wave_time := r.2.1 - wave_start
      let next : ℚ × ℕ :=
        if wave_time < config.wave_min_s then
          (r.2.1 + (config.wave_min_s - wave_time), r.2.2)
        else if wave_time < config.wave_max_s then
          (r.2.1 + rng r.2.2, r.2.2 + 1)
        else (r.2.1, r.2.2)
      r.1 ++ buildScheduleAux airtime_s config rng rest (hop_index + 1) next.1 next.2

/-- `build_schedule` from `longfast_animation_lib.py`: hop indices start at 1
for the first wave. -/
def build_schedule (waves : List (List String)) (airtime_s : ℚ)
    (config : AnimationConfig) (rng : ℕ → ℚ) : List (String × ℚ × ℚ × ℕ) :=
  buildScheduleAux airtime_s config rng waves 1 0 0

/-- Specification-side view of the schedule's hop labelling: the towers of
each wave, in order, paired with the running hop index. -/
def scheduleHops : List (List String) → ℕ → List (String × ℕ)
  | [], _ => []
  | wave :: rest, hop_index =>
      (wave.map fun tower => (tower, hop_index)) ++ scheduleHops rest (hop_index + 1)

theorem scheduleWave_hops (airtime_s : ℚ) (rng : ℕ → ℚ) (hop_index : ℕ) :
    ∀ (wave : List String) (current_time : ℚ) (idx : ℕ),
      (scheduleWave airtime_s rng hop_index wave current_time idx).1.map
          (fun e => (e.1, e.2.2.2)) =
        wave.map fun tower => (tower, hop_index) := by
  intro wave
  induction wave with
  | nil => intro current_time idx; rfl
  | cons tower rest ih =>
      intro current_time idx
      simp only [scheduleWave, List.map_cons]
      rw [ih]

theorem buildScheduleAux_hops (airtime_s : ℚ) (config : AnimationConfig) (rng : ℕ → ℚ) :
    ∀ (waves : List (List String)) (hop_index : ℕ) (current_time : ℚ) (idx : ℕ),
      (buildScheduleAux airtime_s config rng waves hop_index current_time idx).map
          (fun e => (e.1, e.2.2.2)) =
        scheduleHops waves hop_index := by
  intro waves
  induction waves with
  | nil => intro hop_index current_time idx; rfl
  | cons wave rest ih =>
      intro hop_index current_time idx
      simp only [buildScheduleAux, scheduleHops, List.map_append]
      rw [scheduleWave_hops, ih]

/-- C10: the (tower, hop_index) projection of every schedule equals the waves
annotated with hop indices starting at 1: a tower of waves[i] is always
emitted with hop_index i+1, so the seed's wave (waves[0]) is labelled 1,
whereas the wave builder's hop map `towerHopsOfWaves` labels the seed 0. -/
theorem build_schedule_hop_indices :
    (∀ (waves : List (List String)) (airtime_s : ℚ) (config : AnimationConfig)
        (rng : ℕ → ℚ),
      (build_schedule waves airtime_s config rng).map (fun e => (e.1, e.2.2.2)) =
        scheduleHops waves 1) ∧
      scheduleHops [["A"], ["B", "C"], ["D"]] 1 =
        [("A", 1), ("B", 2), ("C", 2), ("D", 3)] ∧
      towerHopsOfWaves [["A"], ["B", "C"], ["D"]] =
        [("A", 0), ("B", 1), ("C", 1), ("D", 2)] := by
  refine ⟨?_, by decide, by decide⟩
  intro waves airtime_s config rng
  exact buildScheduleAux_hops airtime_s config rng waves 1 0 0

/-! ## Propagation simulator (`simulate_propagation`) -/

/-- One on-air transmission record as built by `simulate_propagation`
(`render_longfast_animation.py`); `endTime` embeds the dict key "end". -/
structure Transmission where
  tower_h3 : String
  endTime : ℚ
  cell_losses : List (String × ℚ)
  audible_pairs : List (String × ℚ)
  audible_towers : List String

/-- The mutable simulation state of `simulate_propagation`, plus the frame
counter, the next index into the injected random stream, and a trace of
started transmissions (tower, start frame, duration) recorded so the
specification can speak about event sequences. -/
structure SimState where
  received_cells : List (String × ℚ)
  received_towers : List String
  received_quality : List (String × ℚ)
  transmitted_towers : List String
  active_transmissions : List Transmission
  max_population : ℚ
  frame : ℕ
  rngIdx : ℕ
  events : List (String × ℕ × ℚ)

/-- The inputs of `simulate_propagation` other than the random source. -/
structure SimInputs where
  seed_h3 : String
  tower_visibility : List (String × List (String × ℚ))
  visible_cells : List (String × List (String × ℚ))
  population : List (String × ℚ)
  tower_hops : List (String × ℕ)
  animation : AnimationConfig
  airtime_s : ℚ
  max_frames : ℕ

/-- Python `m.get(k, [])` for the visibility dicts. -/
def getPairs (m : List (String × List (String × ℚ))) (k : String) : List (String × ℚ) :=
  ((m.find? fun p => p.1 == k).map fun p => p.2).getD []

/-- Python `k in m` for the hop-map dict. -/
def dictMem (m : List (String × ℕ)) (k : String) : Bool :=
  m.any fun p => p.1 == k

/-- In-place value update of an association-list dict, appending when the key
is absent (Python dicts preserve insertion order and append new keys). -/
def updateEntry : List (String × ℚ) → String → ℚ → List (String × ℚ)
  | [], k, v => [(k, v)]
  | (k', v') :: rest, k, v =>
      if k' = k then (k', v) :: rest else (k', v') :: updateEntry rest k v

/-- The received_cells update of the finalize loop: keep the minimum (best)
path loss seen for each cell. -/
def recordCell (received_cells : List (String × ℚ)) (cell : String)
    (path_loss_db : ℚ) : List (String × ℚ) :=
  match (received_cells.find? fun p => p.1 == cell).map fun p => p.2 with
  | none => updateEntry received_cells cell path_loss_db
  | some old =>
      if path_loss_db < old then updateEntry received_cells cell path_loss_db
      else received_cells

/-- Python set add. -/
def addTower (s : List String) (tower : String) : List String :=
  if tower ∈ s then s else tower :: s

/-- The audible-neighbour update of the finalize loop: first hearing records
the path loss, later hearings keep the maximum (worst) quality. -/
def recordAudible (received_towers : List String) (received_quality : List (String × ℚ))
    (neighbor : String) (path_loss_db : ℚ) : List String × List (String × ℚ) :=
  if neighbor ∈ received_towers then
    (received_towers,
      updateEntry received_quality neighbor
        (max (getDQ received_quality neighbor path_loss_db) path_loss_db))
  else (neighbor :: received_towers, updateEntry received_quality neighbor path_loss_db)

/-- Commit one finished transmission's effects (the body of the finalize
loop of `simulate_propagation`). -/
def finalizeTransmission (st : SimState) (tr : Transmission) : SimState :=
  let rc := tr.cell_losses.foldl (fun rc p => recordCell rc p.1 p.2) st.received_cells
  let tt := addTower st.transmitted_towers tr.tower_h3
  let rtq := tr.audible_pairs.foldl
    (fun acc p => recordAudible acc.1 acc.2 p.1 p.2)
    (st.received_towers, st.received_quality)
  { st with
    received_cells := rc
    transmitted_towers := tt
    received_towers := rtq.1
    received_quality := rtq.2 }

/-- Simulated time of the current frame. -/
def frameTime (inputs : SimInputs) (st : SimState) : ℚ :=
  (st.frame : ℚ) / (inputs.animation.fps : ℚ)

/-- The finalize phase of one frame: split off the transmissions whose end
time has passed and commit their effects in order. -/
def finalizePhase (inputs : SimInputs) (st : SimState) : SimState :=
  let frame_time := frameTime inputs st
  let finished := st.active_transmissions.filter fun tr => decide (tr.endTime ≤ frame_time)
  let stA := { st with
    active_transmissions :=
      st.active_transmissions.filter fun tr => decide (frame_time < tr.endTime) }
  finished.foldl finalizeTransmission stA

/-- The towers of the currently active transmissions. -/
def activeTowers (st : SimState) : List String :=
  st.active_transmissions.map fun tr => tr.tower_h3

/-- The towers audible to any active transmission (blocked from starting). -/
def blockedTowers (st : SimState) : List String :=
  st.active_transmissions.bind fun tr => tr.audible_towers

/-- The eligibility filter of `simulate_propagation`: reached, hop-assigned,
not already transmitted, not on air, not blocked. -/
def eligibleTowers (inputs : SimInputs) (st : SimState) : List String :=
  st.received_towers.filter fun t =>
    dictMem inputs.tower_hops t && !(st.transmitted_towers.contains t)
      && !((activeTowers st).contains t) && !((blockedTowers st).contains t)

/-- The transmitter-selection phase of one frame (skipped on frame 0):
start at most one new transmission, consuming one jitter draw. -/
def startPhase (inputs : SimInputs) (rng : ℕ → ℚ) (frame0 : ℕ) (frame_time : ℚ)
    (st : SimState) : SimState :=
  if frame0 > 0 then
    match select_next_transmitter (eligibleTowers inputs st) st.received_quality with
    | none => st
    | some next_tower =>
        let tower_visible_cells := getPairs inputs.visible_cells next_tower
        let audible_pairs := getPairs inputs.tower_visibility next_tower
        let duration := inputs.airtime_s + rng st.rngIdx
        { st with
          active_transmissions := st.active_transmissions ++
            [⟨next_tower, frame_time + duration, tower_visible_cells, audible_pairs,
              audible_pairs.map fun p => p.1⟩]
          rngIdx := st.rngIdx + 1
          events := st.events ++ [(next_tower, frame0, duration)] }
  else st

/-- Cumulative population over the received cells (absent cells count 0). -/
def cumulativePopulation (population : List (String × ℚ))
    (received_cells : List (String × ℚ)) : ℚ :=
  (received_cells.map fun p => getDQ population p.1 0).sum

/-- One iteration of `simulate_propagation`'s while-loop, up to and including
the frame counter increment. -/
def stepFrame (inputs : SimInputs) (rng : ℕ → ℚ) (st : SimState) : SimState :=
  let st1 := finalizePhase inputs st
  let st2 := startPhase inputs rng st.frame (frameTime inputs st) st1
  { st2 with
    max_population :=
      max st2.max_population (cumulativePopulation inputs.population st2.received_cells)
    frame := st.frame + 1 }

/-- The two break conditions of the while-loop, checked after the frame
counter increment: the frame cap (0 meaning no cap, as Python truthiness),
or no active transmissions with every reached, hop-assigned tower done. -/
def stopCond (inputs : SimInputs) (st : SimState) : Bool :=
  (inputs.max_frames != 0 && decide (st.frame ≥ inputs.max_frames))
    || (decide (st.frame > 0) && st.active_transmissions.isEmpty
        && st.received_towers.all fun t =>
            st.transmitted_towers.contains t || !(dictMem inputs.tower_hops t))

/-- The while-loop of `simulate_propagation`, with fuel; `none` means the
fuel ran out before the loop broke. -/
def simLoop (inputs : SimInputs) (rng : ℕ → ℚ) : ℕ → SimState → Option SimState
  | 0, _ => none
  | fuel + 1, st =>
      let next := stepFrame inputs rng st
      if stopCond inputs next then some next else simLoop inputs rng fuel next

/-- The initial state of `simulate_propagation`: the seed is reached with
quality 0.0 and nothing has transmitted. -/
def initState (inputs : SimInputs) : SimState :=
  { received_cells := []
    received_towers := [inputs.seed_h3]
    received_quality := [(inputs.seed_h3, 0)]
    transmitted_towers := []
    active_transmissions := []
    max_population := 0
    frame := 0
    rngIdx := 0
    events := [] }

/-- `simulate_propagation` from `render_longfast_animation.py`: the returned
pair is (total frames, max cumulative population). -/
def simulate_propagation (inputs : SimInputs) (rng : ℕ → ℚ) (fuel : ℕ) :
    Option (ℕ × ℚ) :=
  (simLoop inputs rng fuel (initState inputs)).map fun st =>
    (st.frame, st.max_population)

/-- The simulation run with its transmission-event trace exposed. -/
def simulateTrace (inputs : SimInputs) (rng : ℕ → ℚ) (fuel : ℕ) :
    Option (List (String × ℕ × ℚ) × ℕ × ℚ) :=
  (simLoop inputs rng fuel (initState inputs)).map fun st =>
    (st.events, st.frame, st.max_population)

/-- The simulation state at the boundary after n frames. -/
def stateAt (inputs : SimInputs) (rng : ℕ → ℚ) (n : ℕ) : SimState :=
  (stepFrame inputs rng)^[n] (initState inputs)

/-! ## Claim C3: determinism -/

/-- C3: two runs over the same inputs whose freshly instantiated random
sources are seeded with the same value — modelled as extensionally equal
draw streams — produce the identical sequence of transmission events, the
same total frame count and the same maximum cumulative population. -/
theorem simulate_propagation_deterministic (inputs : SimInputs)
    (rng1 rng2 : ℕ → ℚ) (fuel : ℕ) (h : ∀ n, rng1 n = rng2 n) :
    simulateTrace inputs rng1 fuel = simulateTrace inputs rng2 fuel := by
  have heq : rng1 = rng2 := funext h
  rw [heq]

/-- Concrete inputs reused by the simulator witnesses: a seed "S" with one
neighbour "T" hearing it, no visible cells, fps 1, airtime 2, no jitter. -/
def witnessInputs : SimInputs :=
  { seed_h3 := "S"
    tower_visibility := [("S", [("T", 90)]), ("T", [("S", 90)])]
    visible_cells := []
    population := []
    tower_hops := [("S", 0), ("T", 1)]
    animation := ⟨1, 3, 0, 0, 0, []⟩
    airtime_s := 2
    max_frames := 0 }

/-- Witness for `simulate_propagation_deterministic` at concrete inputs and
two syntactically different but pointwise-equal streams. -/
theorem simulate_propagation_deterministic_witness :
    simulateTrace witnessInputs (fun n => (n : ℚ)) 30 =
      simulateTrace witnessInputs (fun n => (n : ℚ) * 1) 30 :=
  simulate_propagation_deterministic witnessInputs _ _ 30
    (fun n => (mul_one (n : ℚ)).symm)

/-! ## Claim C4: each tower transmits at most once -/

/-- The towers of the recorded start events. -/
def eventTowers (st : SimState) : List String := st.events.map fun e => e.1

theorem addTower_mem (s : List String) (tower x : String) :
    x ∈ addTower s tower ↔ x ∈ s ∨ x = tower := by
  unfold addTower
  by_cases h : tower ∈ s
  · simp only [h, if_pos]
    constructor
    · exact Or.inl
    · rintro (hx | rfl)
      · exact hx
      · exact h
  · simp only [h, if_neg, not_false_iff, List.mem_cons]
    tauto

theorem finalizeTransmission_active (st : SimState) (tr : Transmission) :
    (finalizeTransmission st tr).active_transmissions = st.active_transmissions := rfl

theorem finalizeTransmission_events (st : SimState) (tr : Transmission) :
    (finalizeTransmission st tr).events = st.events := rfl

theorem finalizeTransmission_frame (st : SimState) (tr : Transmission) :
    (finalizeTransmission st tr).frame = st.frame := rfl

theorem finalizeTransmission_rngIdx (st : SimState) (tr : Transmission) :
    (finalizeTransmission st tr).rngIdx = st.rngIdx := rfl

theorem finalizeTransmission_transmitted (st : SimState) (tr : Transmission) :
    (finalizeTransmission st tr).transmitted_towers =
      addTower st.transmitted_towers tr.tower_h3 := rfl

theorem finalizeFold_active (finished : List Transmission) :
    ∀ s : SimState,
      (finished.foldl finalizeTransmission s).active_transmissions =
        s.active_transmissions := by
  induction finished with
  | nil => intro s; rfl
  | cons tr rest ih =>
      intro s
      rw [List.foldl_cons, ih, finalizeTransmission_active]

theorem finalizeFold_events (finished : List Transmission) :
    ∀ s : SimState,
      (finished.foldl finalizeTransmission s).events = s.events := by
  induction finished with
  | nil => intro s; rfl
  | cons tr rest ih =>
      intro s
      rw [List.foldl_cons, ih, finalizeTransmission_events]

theorem finalizeFold_frame (finished : List Transmission) :
    ∀ s : SimState,
      (finished.foldl finalizeTransmission s).frame = s.frame := by
  induction finished with
  | nil => intro s; rfl
  | cons tr rest ih =>
      intro s
      rw [List.foldl_cons, ih, finalizeTransmission_frame]

theorem finalizeFold_rngIdx (finished : List Transmission) :
    ∀ s : SimState,
      (finished.foldl finalizeTransmission s).rngIdx = s.rngIdx := by
  induction finished with
  | nil => intro s; rfl
  | cons tr rest ih =>
      intro s
      rw [List.foldl_cons, ih, finalizeTransmission_rngIdx]

theorem finalizeFold_transmitted (finished : List Transmission) :
    ∀ (s : SimState) (t : String),
      t ∈ (finished.foldl finalizeTransmission s).transmitted_towers ↔
        t ∈ s.transmitted_towers ∨ ∃ tr, tr ∈ finished ∧ tr.tower_h3 = t := by
  induction finished with
  | nil => intro s t; simp
  | cons tr rest ih =>
      intro s t
      rw [List.foldl_cons, ih, finalizeTransmission_transmitted, addTower_mem]
      constructor
      · rintro ((h | h) | ⟨tr', htr', rfl⟩)
        · exact Or.inl h
        · exact Or.inr ⟨tr, List.mem_cons_self tr rest, h.symm⟩
        · exact Or.inr ⟨tr', List.mem_cons_of_mem tr htr', rfl⟩
      · rintro (h | ⟨tr', htr', rfl⟩)
        · exact Or.inl (Or.inl h)
        · rcases List.mem_cons.mp htr' with rfl | h'
          · exact Or.inl (Or.inr rfl)
          · exact Or.inr ⟨tr', h', rfl⟩

/-- The inductive invariant behind claim C4: start events are per-tower
unique, active transmitters are pairwise distinct and never already in
transmitted_towers, and the start events are exactly the towers that are
done or on air. -/
def txInv (st : SimState) : Prop :=
  (eventTowers st).Nodup ∧
    (activeTowers st).Nodup ∧
    (∀ tr ∈ st.active_transmissions, tr.tower_h3 ∉ st.transmitted_towers) ∧
    (∀ t, t ∈ eventTowers st ↔ t ∈ st.transmitted_towers ∨ t ∈ activeTowers st)

theorem txInv_finalizePhase (inputs : SimInputs) (st : SimState) (h : txInv st) :
    txInv (finalizePhase inputs st) := by
  obtain ⟨h1, h2, h3, h4⟩ := h
  unfold finalizePhase
  set time := frameTime inputs st with htime
  set F := st.active_transmissions.filter fun tr => decide (tr.endTime ≤ time) with hF
  set A := st.active_transmissions.filter fun tr => decide (time < tr.endTime) with hA
  set stA : SimState := { st with active_transmissions := A } with hstA
  have hactive : (F.foldl finalizeTransmission stA).active_transmissions = A := by
    rw [finalizeFold_active]
  have hevents : (F.foldl finalizeTransmission stA).events = st.events := by
    rw [finalizeFold_events]
  have htt : ∀ t, t ∈ (F.foldl finalizeTransmission stA).transmitted_towers ↔
      t ∈ st.transmitted_towers ∨ ∃ tr, tr ∈ F ∧ tr.tower_h3 = t := by
    intro t
    rw [finalizeFold_transmitted]
  have hFsub : ∀ tr, tr ∈ F → tr ∈ st.active_transmissions := by
    intro tr htr
    exact (List.mem_filter.mp htr).1
  have hAsub : ∀ tr, tr ∈ A → tr ∈ st.active_transmissions := by
    intro tr htr
    exact (List.mem_filter.mp htr).1
  have hsplit : ∀ tr, tr ∈ st.active_transmissions → tr ∈ F ∨ tr ∈ A := by
    intro tr htr
    by_cases hle : tr.endTime ≤ time
    · exact Or.inl (List.mem_filter.mpr ⟨htr, by simp [hle]⟩)
    · exact Or.inr (List.mem_filter.mpr ⟨htr, by simp [lt_of_not_le hle]⟩)
  have hFA : ∀ tr, tr ∈ F → tr ∈ A → False := by
    intro tr htrF htrA
    have hle := of_decide_eq_true (List.mem_filter.mp htrF).2
    have hlt := of_decide_eq_true (List.mem_filter.mp htrA).2
    exact absurd hle (not_le.mpr hlt)
  have hANodup : (A.map fun tr => tr.tower_h3).Nodup :=
    h2.sublist (List.Sublist.map _ (List.filter_sublist st.active_transmissions))
  refine ⟨?_, ?_, ?_, ?_⟩
  · unfold eventTowers
    rw [hevents]
    exact h1
  · unfold activeTowers
    rw [hactive]
    exact hANodup
  · intro tr htr
    rw [hactive] at htr
    rw [htt]
    rintro (hmem | ⟨tr', htr', heq⟩)
    · exact h3 tr (hAsub tr htr) hmem
    · have := List.inj_on_of_nodup_map h2 (hFsub tr' htr') (hAsub tr htr) heq
      subst this
      exact hFA tr' htr' htr
  · intro t
    unfold eventTowers activeTowers
    rw [hevents, hactive, htt]
    have hmain := h4 t
    unfold eventTowers activeTowers at hmain
    rw [hmain]
    have hiff : t ∈ st.active_transmissions.map (fun tr => tr.tower_h3) ↔
        (∃ tr, tr ∈ F ∧ tr.tower_h3 = t) ∨
          t ∈ A.map fun tr => tr.tower_h3 := by
      constructor
      · intro hmem
        obtain ⟨tr, htr, rfl⟩ := List.mem_map.mp hmem
        rcases hsplit tr htr with hl | hr
        · exact Or.inl ⟨tr, hl, rfl⟩
        · exact Or.inr (List.mem_map.mpr ⟨tr, hr, rfl⟩)
      · rintro (⟨tr, htr, rfl⟩ | hmem)
        · exact List.mem_map.mpr ⟨tr, hFsub tr htr, rfl⟩
        · obtain ⟨tr, htr, rfl⟩ := List.mem_map.mp hmem
          exact List.mem_map.mpr ⟨tr, hAsub tr htr, rfl⟩
    rw [hiff]
    exact or_assoc.symm

theorem txInv_startPhase (inputs : SimInputs) (rng : ℕ → ℚ) (frame0 : ℕ)
    (frame_time : ℚ) (st : SimState) (h : txInv st) :
    txInv (startPhase inputs rng frame0 frame_time st) := by
  obtain ⟨h1, h2, h3, h4⟩ := h
  unfold startPhase
  by_cases hframe : frame0 > 0
  · rw [if_pos hframe]
    rcases hsel : select_next_transmitter (eligibleTowers inputs st) st.received_quality
      with _ | next_tower
    · exact ⟨h1, h2, h3, h4⟩
    · have hmem := select_mem _ _ _ hsel
      unfold eligibleTowers at hmem
      obtain ⟨hrt, hcond⟩ := List.mem_filter.mp hmem
      have hnt : next_tower ∉ st.transmitted_towers := by
        simp only [Bool.and_eq_true, Bool.not_eq_true'] at hcond
        simpa using hcond.1.1.2
      have hna : next_tower ∉ activeTowers st := by
        simp only [Bool.and_eq_true, Bool.not_eq_true'] at hcond
        simpa using hcond.1.2
      have hne : next_tower ∉ eventTowers st := by
        intro hx
        rcases (h4 next_tower).mp hx with hx' | hx'
        · exact hnt hx'
        · exact hna hx'
      refine ⟨?_, ?_, ?_, ?_⟩
      · unfold eventTowers
        simp only [List.map_append, List.map_cons, List.map_nil]
        rw [List.nodup_append]
        exact ⟨h1, List.nodup_singleton _, by
          intro a ha hb
          simp only [List.mem_singleton] at hb
          subst hb
          exact hne ha⟩
      · unfold activeTowers
        simp only [List.map_append, List.map_cons, List.map_nil]
        rw [List.nodup_append]
        exact ⟨h2, List.nodup_singleton _, by
          intro a ha hb
          simp only [List.mem_singleton] at hb
          subst hb
          exact hna ha⟩
      · intro tr htr
        simp only [List.mem_append, List.mem_singleton] at htr
        rcases htr with htr | rfl
        · exact h3 tr htr
        · exact hnt
      · intro t
        unfold eventTowers activeTowers
        simp only [List.map_append, List.map_cons, List.map_nil, List.mem_append,
          List.mem_singleton]
        have hmain := h4 t
        unfold eventTowers activeTowers at hmain
        rw [hmain]
        tauto
  · rw [if_neg hframe]
    exact ⟨h1, h2, h3, h4⟩

theorem txInv_stepFrame (inputs : SimInputs) (rng : ℕ → ℚ) (st : SimState)
    (h : txInv st) : txInv (stepFrame inputs rng st) := by
  have hfin := txInv_finalizePhase inputs st h
  have hstart := txInv_startPhase inputs rng st.frame (frameTime inputs st) _ hfin
  exact hstart

theorem txInv_stateAt (inputs : SimInputs) (rng : ℕ → ℚ) (n : ℕ) :
    txInv (stateAt inputs rng n) := by
  induction n with
  | zero =>
      refine ⟨?_, ?_, ?_, ?_⟩ <;>
        simp [stateAt, initState, txInv, eventTowers, activeTowers]
  | succ n ih =>
      have : stateAt inputs rng (n + 1) = stepFrame inputs rng (stateAt inputs rng n) := by
        unfold stateAt
        rw [Function.iterate_succ_apply']
      rw [this]
      exact txInv_stepFrame inputs rng _ ih

/-- C4: at every frame boundary of every run, each tower has started at most
one transmission (the event trace has pairwise distinct towers), and no
tower is simultaneously the transmitter of an active transmission and a
member of transmitted_towers. -/
theorem simulate_tx_once_invariant (inputs : SimInputs) (rng : ℕ → ℚ) (n : ℕ) :
    ((stateAt inputs rng n).events.map fun e => e.1).Nodup ∧
      ∀ tr ∈ (stateAt inputs rng n).active_transmissions,
        tr.tower_h3 ∉ (stateAt inputs rng n).transmitted_towers :=
  ⟨(txInv_stateAt inputs rng n).1, (txInv_stateAt inputs rng n).2.2.1⟩

/-- Witness for `simulate_tx_once_invariant` at concrete inputs mid-run. -/
theorem simulate_tx_once_invariant_witness :
    ((stateAt witnessInputs (fun _ => 0) 3).events.map fun e => e.1).Nodup ∧
      ∀ tr ∈ (stateAt witnessInputs (fun _ => 0) 3).active_transmissions,
        tr.tower_h3 ∉ (stateAt witnessInputs (fun _ => 0) 3).transmitted_towers :=
  simulate_tx_once_invariant witnessInputs (fun _ => 0) 3

/-! ## Claim C6: cumulative population is non-decreasing -/

/-- The key sequence of `rc'` extends that of `rc`: Python dict updates keep
the insertion order of existing keys and append new keys at the end. -/
def keysExtend (rc rc' : List (String × ℚ)) : Prop :=
  ∃ ext, rc'.map (fun p => p.1) = rc.map (fun p => p.1) ++ ext

theorem keysExtend_refl (rc : List (String × ℚ)) : keysExtend rc rc :=
  ⟨[], by simp⟩

theorem keysExtend_trans (a b c : List (String × ℚ))
    (h1 : keysExtend a b) (h2 : keysExtend b c) : keysExtend a c := by
  obtain ⟨e1, he1⟩ := h1
  obtain ⟨e2, he2⟩ := h2
  exact ⟨e1 ++ e2, by rw [he2, he1, List.append_assoc]⟩

theorem updateEntry_keys (k : String) (v : ℚ) :
    ∀ m : List (String × ℚ),
      (updateEntry m k v).map (fun p => p.1) = m.map (fun p => p.1) ∨
        (updateEntry m k v).map (fun p => p.1) = m.map (fun p => p.1) ++ [k] := by
  intro m
  induction m with
  | nil => right; rfl
  | cons p rest ih =>
      obtain ⟨k', v'⟩ := p
      by_cases h : k' = k
      · left
        simp [updateEntry, h]
      · rcases ih with ih | ih
        · left
          simp only [updateEntry, h, if_neg, not_false_iff, List.map_cons]
          rw [ih]
        · right
          simp only [updateEntry, h, if_neg, not_false_iff, List.map_cons]
          rw [ih]
          rfl

theorem recordCell_extend (rc : List (String × ℚ)) (cell : String) (pl : ℚ) :
    keysExtend rc (recordCell rc cell pl) := by
  unfold recordCell
  cases hfind : (rc.find? fun p => p.1 == cell).map fun p => p.2 with
  | none =>
      rcases updateEntry_keys cell pl rc with h | h
      · exact ⟨[], by simpa using h⟩
      · exact ⟨[cell], by simpa using h⟩
  | some old =>
      show keysExtend rc (if pl < old then updateEntry rc cell pl else rc)
      by_cases h : pl < old
      · rw [if_pos h]
        rcases updateEntry_keys cell pl rc with h' | h'
        · exact ⟨[], by simpa using h'⟩
        · exact ⟨[cell], by simpa using h'⟩
      · rw [if_neg h]
        exact keysExtend_refl rc

theorem cellsFold_extend (cls : List (String × ℚ)) :
    ∀ rc : List (String × ℚ),
      keysExtend rc (cls.foldl (fun rc p => recordCell rc p.1 p.2) rc) := by
  induction cls with
  | nil => intro rc; exact keysExtend_refl rc
  | cons p rest ih =>
      intro rc
      rw [List.foldl_cons]
      exact keysExtend_trans _ _ _ (recordCell_extend rc p.1 p.2) (ih _)

theorem finalizeTransmission_cells_extend (st : SimState) (tr : Transmission) :
    keysExtend st.received_cells (finalizeTransmission st tr).received_cells :=
  cellsFold_extend tr.cell_losses st.received_cells

theorem finalizeFold_cells_extend (finished : List Transmission) :
    ∀ s : SimState,
      keysExtend s.received_cells
        ((finished.foldl finalizeTransmission s).received_cells) := by
  induction finished with
  | nil => intro s; exact keysExtend_refl s.received_cells
  | cons tr rest ih =>
      intro s
      rw [List.foldl_cons]
      exact keysExtend_trans _ _ _ (finalizeTransmission_cells_extend s tr) (ih _)

theorem startPhase_cells (inputs : SimInputs) (rng : ℕ → ℚ) (frame0 : ℕ)
    (frame_time : ℚ) (st : SimState) :
    (startPhase inputs rng frame0 frame_time st).received_cells = st.received_cells := by
  unfold startPhase
  by_cases hframe : frame0 > 0
  · rw [if_pos hframe]
    rcases hsel : select_next_transmitter (eligibleTowers inputs st) st.received_quality
      with _ | next_tower <;> rfl
  · rw [if_neg hframe]

theorem stepFrame_cells_extend (inputs : SimInputs) (rng : ℕ → ℚ) (st : SimState) :
    keysExtend st.received_cells (stepFrame inputs rng st).received_cells := by
  show keysExtend st.received_cells
    (startPhase inputs rng st.frame (frameTime inputs st) (finalizePhase inputs st)).received_cells
  rw [startPhase_cells]
  exact finalizeFold_cells_extend _ _

theorem getDQ_nonneg (population : List (String × ℚ))
    (hpop : ∀ p ∈ population, 0 ≤ p.2) (c : String) : 0 ≤ getDQ population c 0 := by
  unfold getDQ
  cases hfind : population.find? (fun p => p.1 == c) with
  | none => simp
  | some p =>
      have := hpop p (List.mem_of_find?_eq_some hfind)
      simpa using this

theorem cumulativePopulation_mono (population : List (String × ℚ))
    (hpop : ∀ p ∈ population, 0 ≤ p.2) (rc rc' : List (String × ℚ))
    (h : keysExtend rc rc') :
    cumulativePopulation population rc ≤ cumulativePopulation population rc' := by
  obtain ⟨ext, hext⟩ := h
  have hrw : ∀ l : List (String × ℚ),
      cumulativePopulation population l =
        ((l.map fun p => p.1).map fun c => getDQ population c 0).sum := by
    intro l
    unfold cumulativePopulation
    rw [List.map_map]
    rfl
  rw [hrw, hrw, hext, List.map_append, List.sum_append]
  have hnn : 0 ≤ (ext.map fun c => getDQ population c 0).sum := by
    refine List.sum_nonneg ?_
    intro x hx
    obtain ⟨c, -, rfl⟩ := List.mem_map.mp hx
    exact getDQ_nonneg population hpop c
  linarith

/-- C6: within a run whose population map assigns only non-negative values,
the cumulative population over the received cells is non-decreasing from
every frame to the next. -/
theorem cumulative_population_monotone (inputs : SimInputs) (rng : ℕ → ℚ)
    (hpop : ∀ p ∈ inputs.population, 0 ≤ p.2) (n : ℕ) :
    cumulativePopulation inputs.population (stateAt inputs rng n).received_cells ≤
      cumulativePopulation inputs.population
        (stateAt inputs rng (n + 1)).received_cells := by
  have hstep : stateAt inputs rng (n + 1) = stepFrame inputs rng (stateAt inputs rng n) := by
    unfold stateAt
    rw [Function.iterate_succ_apply']
  rw [hstep]
  exact cumulativePopulation_mono inputs.population hpop _ _
    (stepFrame_cells_extend inputs rng (stateAt inputs rng n))

/-- The witness inputs with a non-trivially populated cell. -/
def witnessInputsPop : SimInputs :=
  { witnessInputs with population := [("C", 5)] }

/-- Witness for `cumulative_population_monotone` on a concrete run with a
non-trivially populated cell. -/
theorem cumulative_population_monotone_witness :
    cumulativePopulation witnessInputsPop.population
        (stateAt witnessInputsPop (fun _ => 0) 2).received_cells ≤
      cumulativePopulation witnessInputsPop.population
        (stateAt witnessInputsPop (fun _ => 0) 3).received_cells :=
  cumulative_population_monotone witnessInputsPop (fun _ => 0)
    (by intro p hp; simp only [witnessInputsPop, List.mem_singleton] at hp; subst hp; norm_num) 2

/-! ## Claim C5: empty adjacency and visibility inputs -/

/-- The simulation inputs of the empty-input scenario: empty adjacency (so
the hop map is derived from `build_waves` of the empty adjacency, as `main`
does), empty visibility, empty population. -/
def emptyInputs (seed : String) (animation : AnimationConfig) (airtime_s : ℚ)
    (max_frames : ℕ) : SimInputs :=
  { seed_h3 := seed
    tower_visibility := []
    visible_cells := []
    population := []
    tower_hops := towerHopsOfWaves (build_waves seed [] animation.hop_limit)
    animation := animation
    airtime_s := airtime_s
    max_frames := max_frames }

theorem build_waves_empty (seed : String) (hop_limit : ℕ) :
    build_waves seed [] hop_limit = [[seed]] := rfl

theorem emptyInputs_hops (seed : String) (animation : AnimationConfig)
    (airtime_s : ℚ) (max_frames : ℕ) :
    (emptyInputs seed animation airtime_s max_frames).tower_hops = [(seed, 0)] := rfl

theorem stepFrame_frame (inputs : SimInputs) (rng : ℕ → ℚ) (st : SimState) :
    (stepFrame inputs rng st).frame = st.frame + 1 := rfl

theorem iterate_frame (inputs : SimInputs) (rng : ℕ → ℚ) :
    ∀ (k : ℕ) (st : SimState),
      ((stepFrame inputs rng)^[k] st).frame = st.frame + k := by
  intro k
  induction k with
  | zero => intro st; simp
  | succ k ih =>
      intro st
      rw [Function.iterate_succ_apply', stepFrame_frame, ih]
      omega

theorem simLoop_some (inputs : SimInputs) (rng : ℕ → ℚ) :
    ∀ (fuel : ℕ) (st st' : SimState), simLoop inputs rng fuel st = some st' →
      ∃ k, 1 ≤ k ∧ st' = (stepFrame inputs rng)^[k] st ∧
        stopCond inputs st' = true := by
  intro fuel
  induction fuel with
  | zero => intro st st' h; simp [simLoop] at h
  | succ fuel ih =>
      intro st st' h
      simp only [simLoop] at h
      by_cases hstop : stopCond inputs (stepFrame inputs rng st) = true
      · rw [if_pos hstop] at h
        obtain rfl : stepFrame inputs rng st = st' := by simpa using h
        exact ⟨1, le_refl 1, by simp, hstop⟩
      · rw [if_neg hstop] at h
        obtain ⟨k, hk, hst, hs⟩ := ih (stepFrame inputs rng st) st' h
        exact ⟨k + 1, by omega, by rw [hst, Function.iterate_succ_apply], hs⟩

/-- The run-long invariant of the empty-visibility scenario: no cell is ever
received, so the running maximum population stays 0. -/
def emptyInv (st : SimState) : Prop :=
  st.received_cells = [] ∧ st.max_population = 0 ∧
    ∀ tr ∈ st.active_transmissions, tr.cell_losses = []

theorem getPairs_nil (k : String) : getPairs [] k = [] := rfl

theorem finalizeTransmission_maxpop (st : SimState) (tr : Transmission) :
    (finalizeTransmission st tr).max_population = st.max_population := rfl

theorem finalizeFold_maxpop (finished : List Transmission) :
    ∀ s : SimState,
      (finished.foldl finalizeTransmission s).max_population = s.max_population := by
  induction finished with
  | nil => intro s; rfl
  | cons tr rest ih =>
      intro s
      rw [List.foldl_cons, ih, finalizeTransmission_maxpop]

theorem finalizeTransmission_cells_of_empty (s : SimState) (tr : Transmission)
    (htr : tr.cell_losses = []) :
    (finalizeTransmission s tr).received_cells = s.received_cells := by
  show tr.cell_losses.foldl _ s.received_cells = s.received_cells
  rw [htr]
  rfl

theorem finalizeFold_cells_of_empty (finished : List Transmission) :
    ∀ s : SimState, (∀ tr ∈ finished, tr.cell_losses = []) →
      (finished.foldl finalizeTransmission s).received_cells = s.received_cells := by
  induction finished with
  | nil => intro s _; rfl
  | cons tr rest ih =>
      intro s hf
      rw [List.foldl_cons, ih _ (fun tr' htr' => hf tr' (List.mem_cons_of_mem tr htr')),
        finalizeTransmission_cells_of_empty s tr (hf tr (List.mem_cons_self tr rest))]

theorem startPhase_maxpop (inputs : SimInputs) (rng : ℕ → ℚ) (frame0 : ℕ)
    (frame_time : ℚ) (st : SimState) :
    (startPhase inputs rng frame0 frame_time st).max_population = st.max_population := by
  unfold startPhase
  by_cases hframe : frame0 > 0
  · rw [if_pos hframe]
    rcases select_next_transmitter (eligibleTowers inputs st) st.received_quality
      with _ | next_tower <;> rfl
  · rw [if_neg hframe]

theorem startPhase_active_cells (inputs : SimInputs) (hvc : inputs.visible_cells = [])
    (rng : ℕ → ℚ) (frame0 : ℕ) (frame_time : ℚ) (st : SimState)
    (hcl : ∀ tr ∈ st.active_transmissions, tr.cell_losses = []) :
    ∀ tr ∈ (startPhase inputs rng frame0 frame_time st).active_transmissions,
      tr.cell_losses = [] := by
  unfold startPhase
  by_cases hframe : frame0 > 0
  · rw [if_pos hframe]
    rcases select_next_transmitter (eligibleTowers inputs st) st.received_quality
      with _ | next_tower
    · exact hcl
    · intro tr htr
      simp only [List.mem_append, List.mem_singleton] at htr
      rcases htr with htr | rfl
      · exact hcl tr htr
      · show getPairs inputs.visible_cells next_tower = []
        rw [hvc, getPairs_nil]
  · rw [if_neg hframe]
    exact hcl

theorem emptyInv_step (inputs : SimInputs) (hvc : inputs.visible_cells = [])
    (rng : ℕ → ℚ) (st : SimState) (h : emptyInv st) :
    emptyInv (stepFrame inputs rng st) := by
  obtain ⟨hrc, hmp, hcl⟩ := h
  have hfin_sub : ∀ tr ∈ st.active_transmissions.filter
      (fun tr => decide (tr.endTime ≤ frameTime inputs st)), tr.cell_losses = [] :=
    fun tr htr => hcl tr (List.mem_filter.mp htr).1
  have hact_sub : ∀ tr ∈ st.active_transmissions.filter
      (fun tr => decide (frameTime inputs st < tr.endTime)), tr.cell_losses = [] :=
    fun tr htr => hcl tr (List.mem_filter.mp htr).1
  have h1rc : (finalizePhase inputs st).received_cells = [] := by
    unfold finalizePhase
    rw [finalizeFold_cells_of_empty _ _ hfin_sub]
    exact hrc
  have h1act : ∀ tr ∈ (finalizePhase inputs st).active_transmissions,
      tr.cell_losses = [] := by
    unfold finalizePhase
    rw [finalizeFold_active]
    exact hact_sub
  have h1mp : (finalizePhase inputs st).max_population = 0 := by
    unfold finalizePhase
    rw [finalizeFold_maxpop]
    exact hmp
  have h2rc : (startPhase inputs rng st.frame (frameTime inputs st)
      (finalizePhase inputs st)).received_cells = [] := by
    rw [startPhase_cells]
    exact h1rc
  have h2act := startPhase_active_cells inputs hvc rng st.frame (frameTime inputs st)
    (finalizePhase inputs st) h1act
  have h2mp : (startPhase inputs rng st.frame (frameTime inputs st)
      (finalizePhase inputs st)).max_population = 0 := by
    rw [startPhase_maxpop]
    exact h1mp
  refine ⟨h2rc, ?_, h2act⟩
  show max _ (cumulativePopulation inputs.population _) = 0
  rw [h2rc, h2mp]
  show max 0 (cumulativePopulation inputs.population []) = 0
  simp [cumulativePopulation]

theorem emptyInv_iterate (inputs : SimInputs) (hvc : inputs.visible_cells = [])
    (rng : ℕ → ℚ) :
    ∀ (k : ℕ) (st : SimState), emptyInv st →
      emptyInv ((stepFrame inputs rng)^[k] st) := by
  intro k
  induction k with
  | zero => intro st h; exact h
  | succ k ih =>
      intro st h
      rw [Function.iterate_succ_apply']
      exact emptyInv_step inputs hvc rng _ (ih st h)

theorem stepFrame_init_empty (seed : String) (animation : AnimationConfig)
    (airtime_s : ℚ) (rng : ℕ → ℚ) :
    (stepFrame (emptyInputs seed animation airtime_s 0) rng
        (initState (emptyInputs seed animation airtime_s 0))).active_transmissions = [] ∧
      (stepFrame (emptyInputs seed animation airtime_s 0) rng
        (initState (emptyInputs seed animation airtime_s 0))).received_towers = [seed] ∧
      (stepFrame (emptyInputs seed animation airtime_s 0) rng
        (initState (emptyInputs seed animation airtime_s 0))).transmitted_towers = [] ∧
      (stepFrame (emptyInputs seed animation airtime_s 0) rng
        (initState (emptyInputs seed animation airtime_s 0))).frame = 1 :=
  ⟨rfl, rfl, rfl, rfl⟩

theorem stopCond_after_one_frame (seed : String) (animation : AnimationConfig)
    (airtime_s : ℚ) (rng : ℕ → ℚ) :
    stopCond (emptyInputs seed animation airtime_s 0)
      (stepFrame (emptyInputs seed animation airtime_s 0) rng
        (initState (emptyInputs seed animation airtime_s 0))) = false := by
  obtain ⟨ha, hr, ht, hf⟩ := stepFrame_init_empty seed animation airtime_s rng
  have hm : (emptyInputs seed animation airtime_s 0).max_frames = 0 := rfl
  unfold stopCond
  rw [ha, hr, ht, hf, emptyInputs_hops, hm]
  simp [dictMem]

theorem emptyInputs_run (seed : String) (animation : AnimationConfig)
    (airtime_s : ℚ) (rng : ℕ → ℚ) (fuel : ℕ) (frames : ℕ) (maxpop : ℚ)
    (h : simulate_propagation (emptyInputs seed animation airtime_s 0) rng fuel =
      some (frames, maxpop)) :
    maxpop = 0 ∧ 2 ≤ frames := by
  unfold simulate_propagation at h
  obtain ⟨st, hst, hpair⟩ := Option.map_eq_some'.mp h
  have hframes : frames = st.frame := (congrArg Prod.fst hpair).symm
  have hmaxpop : maxpop = st.max_population := (congrArg Prod.snd hpair).symm
  obtain ⟨k, hk1, hkst, hstop⟩ := simLoop_some _ rng fuel _ st hst
  have hinit : emptyInv (initState (emptyInputs seed animation airtime_s 0)) :=
    ⟨rfl, rfl, by intro tr htr; simp [initState] at htr⟩
  have hinv : emptyInv st := by
    rw [hkst]
    exact emptyInv_iterate _ rfl rng k _ hinit
  have hframe_k : st.frame = k := by
    rw [hkst, iterate_frame]
    simp [initState]
  refine ⟨by rw [hmaxpop]; exact hinv.2.1, ?_⟩
  rw [hframes, hframe_k]
  rcases Nat.lt_or_ge k 2 with hk2 | hk2
  · exfalso
    have hk : k = 1 := by omega
    subst hk
    rw [hkst] at hstop
    simp only [Function.iterate_one] at hstop
    rw [stopCond_after_one_frame seed animation airtime_s rng] at hstop
    exact Bool.false_ne_true hstop
  · exact hk2

/-- Evaluation of the concrete empty-input run (fps 1, airtime 2 s, no
jitter, no cap): frame 0 idle, the seed starts transmitting at frame 1 for
2 s, the transmission is finalized at frame 3, and the loop stops after
frame 4 with no population ever reached. -/
theorem emptyRun_eval :
    simulate_propagation (emptyInputs "S" ⟨1, 3, 0, 0, 0, []⟩ 2 0) (fun _ => 0) 20 =
      some (4, 0) := by
  norm_num [simulate_propagation, simLoop, stepFrame, finalizePhase, startPhase,
    finalizeTransmission, frameTime, select_next_transmitter, eligibleTowers,
    activeTowers, blockedTowers, dictMem, getPairs, getDQ, qkey, cumulativePopulation,
    initState, emptyInputs, stopCond, addTower, recordCell, recordAudible, updateEntry,
    towerHopsOfWaves, build_waves, buildWavesAux, buildWavesStep, adjGet, visitNeighbor]

/-- C5 counterexample: with empty adjacency and visibility inputs the
simulation does not terminate immediately after frame 0 (frame count 1): the
seed itself still transmits; with fps 1, airtime 2 s, no jitter and no cap
the run returns frame count 4, not 1. -/
theorem empty_inputs_counterexample :
    simulate_propagation (emptyInputs "S" ⟨1, 3, 0, 0, 0, []⟩ 2 0) (fun _ => 0) 20 =
      some (4, 0) ∧ (4 : ℕ) ≠ 1 :=
  ⟨emptyRun_eval, by decide⟩

/-- C5 (amended): with empty adjacency and visibility inputs, build_waves
collapses to the single wave [seed] and the hop map assigns the seed hop 0;
the simulation does not terminate immediately after frame 0 — the seed
itself transmits — and every terminating uncapped run returns a frame count
of at least 2 together with cumulative (max) population 0, the sum over the
seed's (empty) visible cells; concretely, with fps 1, airtime 2 s and no
jitter the run returns (4, 0). -/
theorem empty_inputs_amended :
    (∀ (seed : String) (hop_limit : ℕ), build_waves seed [] hop_limit = [[seed]]) ∧
      (∀ (seed : String) (animation : AnimationConfig) (airtime_s : ℚ)
        (rng : ℕ → ℚ) (fuel : ℕ) (frames : ℕ) (maxpop : ℚ),
        simulate_propagation (emptyInputs seed animation airtime_s 0) rng fuel =
          some (frames, maxpop) → maxpop = 0 ∧ 2 ≤ frames) ∧
      simulate_propagation (emptyInputs "S" ⟨1, 3, 0, 0, 0, []⟩ 2 0) (fun _ => 0) 20 =
        some (4, 0) := by
  refine ⟨fun seed hop_limit => build_waves_empty seed hop_limit, ?_, emptyRun_eval⟩
  intro seed animation airtime_s rng fuel frames maxpop h
  exact emptyInputs_run seed animation airtime_s rng fuel frames maxpop h

/-- Witness for `empty_inputs_amended`, discharging its implication at the
concrete empty-input run. -/
theorem empty_inputs_amended_witness :
    (0 : ℚ) = 0 ∧ 2 ≤ 4 :=
  empty_inputs_amended.2.1 "S" ⟨1, 3, 0, 0, 0, []⟩ 2 (fun _ => 0) 20 4 0 emptyRun_eval

end LongFast
